import Mathlib

/-!
Verification of the DisCloud chunked, encrypted, resumable file-storage
pipeline against its natural-language specification.

The Python source is shallowly embedded:
* `apps/files/services/encryption_service.py` (AES-256-CBC with PKCS#7
  padding and a per-chunk random IV) is embedded with the AES block
  permutation kept abstract (it lives in the external `cryptography`
  library); the CBC chaining, the padding, and the IV framing are
  embedded concretely.
* `apps/files/repository.py` (`FileRepositoryDjango`) becomes pure
  functions over an explicit catalog state `St`.
* `apps/files/services/file_service.py` (`FileService.upload_file`,
  `FileService.get_decrypted_stream`) becomes state-passing functions;
  the generator used for downloads becomes an explicit suspension state
  machine emitting a trace of driver calls.
* `apps/storage_providers/providers/discord/discord_validator.py`
  (`DiscordConfigValidator._validate_formats`) becomes a pure function
  on a config record, with the two regexes spelled out.
-/

namespace DisCloud

/-! ## Bytes -/

/-- A byte string, as a list of natural numbers (each conceptually < 256). -/
abbrev Bytes := List Nat

/-- Pointwise XOR of two byte strings (truncates to the shorter one). -/
def xorBytes (a b : Bytes) : Bytes := List.zipWith (fun x y => x ^^^ y) a b

theorem length_xorBytes (a b : Bytes) :
    (xorBytes a b).length = min a.length b.length := by
  simp [xorBytes]

theorem xorBytes_xorBytes_cancel :
    ∀ (a b : Bytes), a.length ≤ b.length → xorBytes (xorBytes a b) b = a := by
  intro a
  induction a with
  | nil => intro b _; simp [xorBytes]
  | cons x xs ih =>
    intro b hb
    cases b with
    | nil => simp at hb
    | cons y ys =>
      simp only [xorBytes, List.zipWith] at *
      congr 1
      · rw [Nat.xor_assoc, Nat.xor_self, Nat.xor_zero]
      · exact ih ys (by simpa using hb)

/-! ## PKCS#7 padding (block size 16)

`encryption_service.py` delegates padding to
`cryptography.hazmat.primitives.padding.PKCS7(128)`; its semantics are
the standard PKCS#7 scheme embedded here. -/

/-- Number of padding bytes PKCS#7 appends to a message of length `n`
(always between 1 and 16). -/
def padAmount (n : Nat) : Nat := 16 - n % 16

/-- PKCS#7 pad: append `p` copies of the byte `p`, `p = padAmount`. -/
def pkcs7Pad (bs : Bytes) : Bytes :=
  bs ++ List.replicate (padAmount bs.length) (padAmount bs.length)

/-- PKCS#7 unpad: `none` models the library unpadder raising on invalid
padding (empty input, length not a block multiple, or bad pad bytes). -/
def pkcs7Unpad (bs : Bytes) : Option Bytes :=
  if bs.length % 16 = 0 ∧ 0 < bs.length then
    if 1 ≤ bs.getLastD 0 ∧ bs.getLastD 0 ≤ bs.length ∧
        (bs.drop (bs.length - bs.getLastD 0)).all
          (fun c => c = bs.getLastD 0) then
      some (bs.take (bs.length - bs.getLastD 0))
    else
      none
  else
    none

theorem padAmount_pos (n : Nat) : 0 < padAmount n := by
  have h : n % 16 < 16 := Nat.mod_lt _ (by omega)
  unfold padAmount
  omega

theorem padAmount_le (n : Nat) : padAmount n ≤ 16 := by
  unfold padAmount; omega

theorem length_pkcs7Pad (bs : Bytes) :
    (pkcs7Pad bs).length = bs.length + padAmount bs.length := by
  simp [pkcs7Pad]

theorem length_pkcs7Pad_mod (bs : Bytes) : (pkcs7Pad bs).length % 16 = 0 := by
  have h : bs.length % 16 < 16 := Nat.mod_lt _ (by omega)
  rw [length_pkcs7Pad]
  unfold padAmount
  omega

theorem length_pkcs7Pad_pos (bs : Bytes) : 0 < (pkcs7Pad bs).length := by
  rw [length_pkcs7Pad]
  have := padAmount_pos bs.length
  omega

theorem pkcs7Unpad_pkcs7Pad (bs : Bytes) : pkcs7Unpad (pkcs7Pad bs) = some bs := by
  have hp := padAmount_pos bs.length
  have hle := padAmount_le bs.length
  have hlen := length_pkcs7Pad bs
  have hlast : (pkcs7Pad bs).getLastD 0 = padAmount bs.length := by
    unfold pkcs7Pad
    rw [List.getLastD_eq_getLast?,
      List.getLast?_append_of_ne_nil _
        (List.ne_nil_of_length_pos (by simpa using hp)),
      List.getLast?_replicate]
    simp [Nat.pos_iff_ne_zero.mp hp]
  have hdrop : (pkcs7Pad bs).drop ((pkcs7Pad bs).length - padAmount bs.length) =
      List.replicate (padAmount bs.length) (padAmount bs.length) := by
    unfold pkcs7Pad
    apply List.drop_left'
    rw [List.length_append, List.length_replicate]
    omega
  have htake : (pkcs7Pad bs).take ((pkcs7Pad bs).length - padAmount bs.length) = bs := by
    unfold pkcs7Pad
    apply List.take_left'
    rw [List.length_append, List.length_replicate]
    omega
  have hcond : 1 ≤ (pkcs7Pad bs).getLastD 0 ∧
      (pkcs7Pad bs).getLastD 0 ≤ (pkcs7Pad bs).length ∧
      ((pkcs7Pad bs).drop ((pkcs7Pad bs).length - (pkcs7Pad bs).getLastD 0)).all
        (fun c => c = (pkcs7Pad bs).getLastD 0) := by
    refine ⟨by rw [hlast]; omega, ?_, ?_⟩
    · rw [hlast, hlen]; omega
    · rw [hlast, hdrop]
      simp [List.all_eq_true, List.mem_replicate]
  unfold pkcs7Unpad
  rw [if_pos ⟨length_pkcs7Pad_mod bs, length_pkcs7Pad_pos bs⟩, if_pos hcond,
    hlast, htake]

/-! ## Splitting a byte string into fixed-size pieces

Used both for the AES block structure (size 16) and for the plaintext
slices produced by the upload stream (`file_stream.chunks(chunk_size)`,
Django's `File.chunks`, which reads successive pieces of `chunk_size`
bytes and yields nothing for an empty file). -/

/-- Fuel-indexed splitter: cut `bs` into consecutive pieces of `size`
bytes (the last piece may be shorter). -/
def chunkListAux (size : Nat) : Nat → Bytes → List Bytes
  | 0, _ => []
  | fuel + 1, bs =>
    if bs = [] then []
    else bs.take size :: chunkListAux size fuel (bs.drop size)

/-- Cut `bs` into consecutive pieces of `size` bytes. -/
def chunkList (size : Nat) (bs : Bytes) : List Bytes :=
  chunkListAux size bs.length bs

theorem chunkListAux_flatten (size : Nat) (hsize : 1 ≤ size) :
    ∀ (fuel : Nat) (bs : Bytes), bs.length ≤ fuel →
      (chunkListAux size fuel bs).flatten = bs := by
  intro fuel
  induction fuel with
  | zero =>
    intro bs h
    have : bs = [] := List.eq_nil_of_length_eq_zero (by omega)
    simp [this, chunkListAux]
  | succ n ih =>
    intro bs h
    by_cases hbs : bs = []
    · simp [hbs, chunkListAux]
    · have hpos : 0 < bs.length := List.length_pos.mpr hbs
      rw [chunkListAux, if_neg hbs, List.flatten_cons,
        ih (bs.drop size) (by simp only [List.length_drop]; omega),
        List.take_append_drop]

/-- Concatenating the pieces restores the original byte string. -/
theorem chunkList_flatten (size : Nat) (hsize : 1 ≤ size) (bs : Bytes) :
    (chunkList size bs).flatten = bs :=
  chunkListAux_flatten size hsize bs.length bs (le_refl _)

theorem chunkListAux_length_eq (size : Nat) :
    ∀ (fuel : Nat) (bs : Bytes), bs.length ≤ fuel → size ∣ bs.length →
      ∀ b ∈ chunkListAux size fuel bs, b.length = size := by
  intro fuel
  induction fuel with
  | zero =>
    intro bs h _ b hb
    have : bs = [] := List.eq_nil_of_length_eq_zero (by omega)
    simp [this, chunkListAux] at hb
  | succ n ih =>
    intro bs h hdvd b hb
    by_cases hbs : bs = []
    · simp [hbs, chunkListAux] at hb
    · rw [chunkListAux, if_neg hbs, List.mem_cons] at hb
      have hpos : 0 < bs.length := List.length_pos.mpr hbs
      have hsle : size ≤ bs.length := Nat.le_of_dvd hpos hdvd
      have hsize1 : 1 ≤ size := by
        rcases Nat.eq_zero_or_pos size with h0 | h1
        · exfalso
          rw [h0] at hdvd
          have := Nat.eq_zero_of_zero_dvd hdvd
          omega
        · exact h1
      rcases hb with hb | hb
      · rw [hb]
        simp only [List.length_take]
        omega
      · refine ih (bs.drop size) ?_ ?_ b hb
        · simp only [List.length_drop]; omega
        · simp only [List.length_drop]
          exact Nat.dvd_sub' hdvd (dvd_refl size)

/-- Every piece of a block-multiple byte string has exactly `size` bytes. -/
theorem chunkList_length_eq (size : Nat) (bs : Bytes) (hdvd : size ∣ bs.length) :
    ∀ b ∈ chunkList size bs, b.length = size :=
  chunkListAux_length_eq size bs.length bs (le_refl _) hdvd

theorem chunkListAux_of_flatten (size : Nat) (hsize : 1 ≤ size) :
    ∀ (fuel : Nat) (blocks : List Bytes), blocks.flatten.length ≤ fuel →
      (∀ b ∈ blocks, b.length = size) →
      chunkListAux size fuel blocks.flatten = blocks := by
  intro fuel
  induction fuel with
  | zero =>
    intro blocks h hall
    cases blocks with
    | nil => simp [chunkListAux]
    | cons b rest =>
      exfalso
      have hb : b.length = size := hall b (by simp)
      simp only [List.flatten_cons, List.length_append] at h
      omega
  | succ n ih =>
    intro blocks h hall
    cases blocks with
    | nil => simp [chunkListAux]
    | cons b rest =>
      have hb : b.length = size := hall b (by simp)
      have hne : b ++ rest.flatten ≠ [] := by
        intro hcontra
        have := congrArg List.length hcontra
        simp only [List.length_append, List.length_nil] at this
        omega
      have ht : (b ++ rest.flatten).take size = b := List.take_left' hb
      have hd : (b ++ rest.flatten).drop size = rest.flatten := List.drop_left' hb
      simp only [List.flatten_cons] at h ⊢
      rw [chunkListAux, if_neg hne, ht, hd, ih rest ?_
        (fun x hx => hall x (by simp [hx]))]
      simp only [List.length_append] at h
      omega

/-- Re-splitting a concatenation of `size`-byte blocks gives them back. -/
theorem chunkList_of_flatten (size : Nat) (hsize : 1 ≤ size) (blocks : List Bytes)
    (hall : ∀ b ∈ blocks, b.length = size) :
    chunkList size blocks.flatten = blocks :=
  chunkListAux_of_flatten size hsize blocks.flatten.length blocks (le_refl _) hall

/-! ## CBC chaining over an abstract block permutation

`E1` / `D1` stand for the AES-256 forward and inverse block permutations
(bound to a 32-byte key) supplied by the `cryptography` library, which
is external to the repository.  Theorems assume `D1 (E1 b) = b` and that
`E1` preserves the 16-byte block length. -/

/-- CBC encryption of a list of 16-byte blocks with previous ciphertext
block `prev` (the IV for the first block). -/
def cbcEncBlocks (E1 : Bytes → Bytes) (prev : Bytes) : List Bytes → List Bytes
  | [] => []
  | b :: rest =>
    E1 (xorBytes b prev) :: cbcEncBlocks E1 (E1 (xorBytes b prev)) rest

/-- CBC decryption, inverse chaining of `cbcEncBlocks`. -/
def cbcDecBlocks (D1 : Bytes → Bytes) (prev : Bytes) : List Bytes → List Bytes
  | [] => []
  | c :: rest => xorBytes (D1 c) prev :: cbcDecBlocks D1 c rest

theorem cbcDecBlocks_cbcEncBlocks (E1 D1 : Bytes → Bytes)
    (hinv : ∀ b, D1 (E1 b) = b) (hlen : ∀ b, (E1 b).length = b.length) :
    ∀ (blocks : List Bytes) (prev : Bytes), prev.length = 16 →
      (∀ b ∈ blocks, b.length = 16) →
      cbcDecBlocks D1 prev (cbcEncBlocks E1 prev blocks) = blocks := by
  intro blocks
  induction blocks with
  | nil => intro prev _ _; simp [cbcEncBlocks, cbcDecBlocks]
  | cons b rest ih =>
    intro prev hprev hall
    have hb : b.length = 16 := hall b (by simp)
    have hxlen : (xorBytes b prev).length = 16 := by
      rw [length_xorBytes, hb, hprev]; simp
    simp only [cbcEncBlocks, cbcDecBlocks]
    congr 1
    · rw [hinv]
      exact xorBytes_xorBytes_cancel b prev (by omega)
    · exact ih (E1 (xorBytes b prev)) (by rw [hlen, hxlen])
        (fun x hx => hall x (by simp [hx]))

theorem cbcEncBlocks_length (E1 : Bytes → Bytes)
    (hlen : ∀ b, (E1 b).length = b.length) :
    ∀ (blocks : List Bytes) (prev : Bytes), prev.length = 16 →
      (∀ b ∈ blocks, b.length = 16) →
      ∀ c ∈ cbcEncBlocks E1 prev blocks, c.length = 16 := by
  intro blocks
  induction blocks with
  | nil => intro prev _ _ c hc; simp [cbcEncBlocks] at hc
  | cons b rest ih =>
    intro prev hprev hall c hc
    have hb : b.length = 16 := hall b (by simp)
    have hclen : (E1 (xorBytes b prev)).length = 16 := by
      rw [hlen, length_xorBytes, hb, hprev]; simp
    simp only [cbcEncBlocks, List.mem_cons] at hc
    rcases hc with hc | hc
    · rw [hc]; exact hclen
    · exact ih (E1 (xorBytes b prev)) hclen
        (fun x hx => hall x (by simp [hx])) c hc

/-! ## The cipher (`EncryptionService.encrypt_chunk` / `decrypt_chunk`) -/

/-- Failure kinds of `decrypt_chunk`: the `ValueError` for inputs shorter
than one block, and the padding `ValueError` from the unpadder. -/
inductive DecErr where
  | tooShort
  | badPadding
deriving DecidableEq, Repr

/-- `EncryptionService.encrypt_chunk`: prepend the fresh random `iv` to
the CBC encryption of the PKCS#7-padded chunk. -/
def encryptChunk (E1 : Bytes → Bytes) (iv : Bytes) (chunk : Bytes) : Bytes :=
  iv ++ (cbcEncBlocks E1 iv (chunkList 16 (pkcs7Pad chunk))).flatten

/-- `EncryptionService.decrypt_chunk`: check the minimum length, split
off the IV, CBC-decrypt, unpad. -/
def decryptChunk (D1 : Bytes → Bytes) (ec : Bytes) : Except DecErr Bytes :=
  if ec.length < 16 then
    Except.error DecErr.tooShort
  else
    match pkcs7Unpad ((cbcDecBlocks D1 (ec.take 16) (chunkList 16 (ec.drop 16))).flatten) with
    | some p => Except.ok p
    | none => Except.error DecErr.badPadding

theorem flatten_length_of_all_eq (size : Nat) :
    ∀ (blocks : List Bytes), (∀ b ∈ blocks, b.length = size) →
      blocks.flatten.length = blocks.length * size := by
  intro blocks
  induction blocks with
  | nil => intro _; simp
  | cons b rest ih =>
    intro hall
    have hb : b.length = size := hall b (by simp)
    simp only [List.flatten_cons, List.length_append, List.length_cons, hb,
      ih (fun x hx => hall x (by simp [hx]))]
    ring

theorem length_cbcEncBlocks_list (E1 : Bytes → Bytes) :
    ∀ (blocks : List Bytes) (prev : Bytes),
      (cbcEncBlocks E1 prev blocks).length = blocks.length := by
  intro blocks
  induction blocks with
  | nil => intro prev; simp [cbcEncBlocks]
  | cons b rest ih =>
    intro prev
    simp only [cbcEncBlocks, List.length_cons, ih]

theorem length_encryptChunk (E1 : Bytes → Bytes)
    (hlen : ∀ b, (E1 b).length = b.length)
    (iv : Bytes) (hiv : iv.length = 16) (chunk : Bytes) :
    (encryptChunk E1 iv chunk).length = 16 + (pkcs7Pad chunk).length := by
  have hdvd : (16 : Nat) ∣ (pkcs7Pad chunk).length :=
    Nat.dvd_of_mod_eq_zero (length_pkcs7Pad_mod chunk)
  have hblocks := chunkList_length_eq 16 (pkcs7Pad chunk) hdvd
  have hcipher := cbcEncBlocks_length E1 hlen _ iv hiv hblocks
  unfold encryptChunk
  rw [List.length_append, hiv]
  congr 1
  rw [flatten_length_of_all_eq 16 _ hcipher, length_cbcEncBlocks_list]
  rw [← flatten_length_of_all_eq 16 _ hblocks, chunkList_flatten 16 (by omega)]

/-- Core round trip: decrypting an encryption restores the plaintext. -/
theorem decryptChunk_encryptChunk (E1 D1 : Bytes → Bytes)
    (hinv : ∀ b, D1 (E1 b) = b) (hlen : ∀ b, (E1 b).length = b.length)
    (iv : Bytes) (hiv : iv.length = 16) (chunk : Bytes) :
    decryptChunk D1 (encryptChunk E1 iv chunk) = Except.ok chunk := by
  have hdvd : (16 : Nat) ∣ (pkcs7Pad chunk).length :=
    Nat.dvd_of_mod_eq_zero (length_pkcs7Pad_mod chunk)
  have hblocks := chunkList_length_eq 16 (pkcs7Pad chunk) hdvd
  have hcipher := cbcEncBlocks_length E1 hlen _ iv hiv hblocks
  have hectake : (encryptChunk E1 iv chunk).take 16 = iv := by
    unfold encryptChunk
    rw [List.take_append_of_le_length (by omega), ← hiv, List.take_length]
  have hecdrop : (encryptChunk E1 iv chunk).drop 16 =
      (cbcEncBlocks E1 iv (chunkList 16 (pkcs7Pad chunk))).flatten := by
    unfold encryptChunk
    exact List.drop_left' hiv
  have hnotshort : ¬ (encryptChunk E1 iv chunk).length < 16 := by
    unfold encryptChunk
    rw [List.length_append]
    omega
  unfold decryptChunk
  rw [if_neg hnotshort]
  simp only [hectake, hecdrop]
  rw [chunkList_of_flatten 16 (by omega) _ hcipher]
  rw [cbcDecBlocks_cbcEncBlocks E1 D1 hinv hlen _ iv hiv hblocks]
  rw [chunkList_flatten 16 (by omega) (pkcs7Pad chunk)]
  rw [pkcs7Unpad_pkcs7Pad]

/-! ## Config validator format layer
(`DiscordConfigValidator._validate_formats`)

The two regexes are `BOT_TOKEN_PATTERN` and `SNOWFLAKE_PATTERN`.  Python
`re.match` with a trailing `$` also accepts one trailing newline, which
is embedded faithfully.  `\d` is modelled as the ASCII digits. -/

/-- The character class of the bot-token regex: `[A-Za-z0-9_-]`. -/
def tokenChar (c : Char) : Bool := c.isAlphanum || c = '_' || c = '-'

/-- Split a character list at every dot, keeping empty segments (the
token char class excludes the dot, so the regex is equivalent to a split). -/
def splitDot : List Char → List (List Char)
  | [] => [[]]
  | c :: rest =>
    match splitDot rest with
    | [] => [[]]
    | h :: t => if c = '.' then [] :: h :: t else (c :: h) :: t

/-- Anchored core of `BOT_TOKEN_PATTERN`
(three dot-separated runs of `tokenChar`, lengths at least 20, 6, 27). -/
def botTokenCore (s : String) : Bool :=
  match splitDot s.toList with
  | [a, b, c] =>
    (20 ≤ a.length && a.all tokenChar) &&
    (6 ≤ b.length && b.all tokenChar) &&
    (27 ≤ c.length && c.all tokenChar)
  | _ => false

/-- Anchored core of `SNOWFLAKE_PATTERN` (17 to 19 ASCII digits). -/
def snowflakeCore (s : String) : Bool :=
  (17 ≤ s.length && s.length ≤ 19) && s.toList.all (fun c => c.isDigit)

/-- Python `pattern.match` with `^...$`: the core must match the whole
string, or the whole string minus one trailing newline. -/
def pyDollarMatch (core : String → Bool) (s : String) : Bool :=
  core s ||
    (s.toList.getLast? == some (Char.ofNat 10) &&
      core (String.mk s.toList.dropLast))

/-- `BOT_TOKEN_PATTERN.match`. -/
def botTokenMatch (s : String) : Bool := pyDollarMatch botTokenCore s

/-- `SNOWFLAKE_PATTERN.match`. -/
def snowflakeMatch (s : String) : Bool := pyDollarMatch snowflakeCore s

/-- The part of a Discord config consumed by the format layer (schema
validation has already ensured the three fields are present and
non-empty; `str()` conversion of integer IDs is implicit). -/
structure DiscordConfig where
  bot_token : String
  server_id : String
  channel_id : String
deriving DecidableEq, Repr

/-- The warning text appended for a token-format mismatch. -/
def tokenFormatWarning : String :=
  "Bot token does not match expected Discord token format. " ++
  "This might be a test token or incorrectly formatted."

/-- The error text appended for a malformed numeric ID. -/
def idFormatError (field value : String) : String :=
  field ++ " (" ++ value ++
  ") does not match Discord Snowflake ID format (17-19 digits)"

/-- `DiscordConfigValidator._validate_formats`: appends to the running
`errors` and `warnings` lists.  A bot-token mismatch (on a non-empty
token) appends a warning; a `server_id` or `channel_id` mismatch appends
an error. -/
def validateFormats (cfg : DiscordConfig) (errors warnings : List String) :
    List String × List String :=
  let warnings1 :=
    if cfg.bot_token ≠ "" ∧ ¬ botTokenMatch cfg.bot_token then
      warnings ++ [tokenFormatWarning]
    else warnings
  let errors1 :=
    if ¬ snowflakeMatch cfg.server_id then
      errors ++ [idFormatError "server_id" cfg.server_id]
    else errors
  let errors2 :=
    if ¬ snowflakeMatch cfg.channel_id then
      errors1 ++ [idFormatError "channel_id" cfg.channel_id]
    else errors1
  (errors2, warnings1)

/-! ## The catalog (`FileRepositoryDjango` over Django ORM state)

The relational store becomes an explicit state `St`.  Remote storage
(the Discord backend behind `StorageService`) is modelled inside the
same state as an append-only list of uploaded ciphertexts; a chunk
reference is an index into it. -/

/-- The closed status set checked by `change_file_status`. -/
def validStatuses : List String := ["PENDING", "COMPLETED", "FAILED", "ERROR"]

/-- A row of the `File` model, as used by the repository and service
(`storage_context` and the provider are opaque handles). -/
structure FileRec where
  fid : Nat
  original_filename : String
  encrypted_filename : String
  description : String
  encryption_key : Bytes
  storage_provider : String
  storage_context : Nat
  client_signature : String
  status : String
deriving DecidableEq, Repr

/-- A row of the `Chunk` model. -/
structure ChunkRec where
  fileId : Nat
  chunk_order : Nat
  chunk_ref : Nat
deriving DecidableEq, Repr

/-- Catalog + remote-backend state.  `nextId` models the autoincrement
primary key; `remote` the ciphertexts persisted on the backend. -/
structure St where
  files : List FileRec
  chunks : List ChunkRec
  remote : List Bytes
  nextId : Nat
deriving DecidableEq, Repr

/-- `FileRepositoryDjango.create_file` (always `status = PENDING`). -/
def createFile (st : St) (origName encName desc : String) (key : Bytes)
    (provider : String) (ctx : Nat) (sig : String) : St × FileRec :=
  let f : FileRec :=
    ⟨st.nextId, origName, encName, desc, key, provider, ctx, sig, "PENDING"⟩
  ({ st with files := st.files ++ [f], nextId := st.nextId + 1 }, f)

/-- `File.objects.get(pk=...)`, as an `Option`. -/
def getFile (st : St) (fid : Nat) : Option FileRec :=
  st.files.find? (fun r => r.fid == fid)

/-- `FileRepositoryDjango.update_file`: `filter(pk=id).update(**kwargs)`
applies the field updates to the matching rows (possibly none). -/
def updateFile (st : St) (fid : Nat) (upd : FileRec → FileRec) : St :=
  { st with files := st.files.map (fun r => if r.fid = fid then upd r else r) }

/-- `FileRepositoryDjango.delete_file`: `filter(pk=id).delete()`, with
the Django cascade removing the chunks of the deleted file. -/
def deleteFile (st : St) (fid : Nat) : St :=
  { st with files := st.files.filter (fun r => r.fid != fid),
            chunks := st.chunks.filter (fun c => c.fileId != fid) }

/-- Error raised by `change_file_status` on a status outside the set. -/
inductive RepoErr where
  | invalidStatus
deriving DecidableEq, Repr

/-- `FileRepositoryDjango.change_file_status`: validate the status, then
`filter(pk=id).update(status=...)`. -/
def changeFileStatus (st : St) (fid : Nat) (newStatus : String) :
    Except RepoErr St :=
  if newStatus ∈ validStatuses then
    Except.ok { st with files := (st.files.map
      (fun r => if r.fid = fid then { r with status := newStatus } else r)) }
  else
    Except.error RepoErr.invalidStatus

/-- `FileRepositoryDjango.list_chunks`: the chunk rows of one file. -/
def listChunks (st : St) (fid : Nat) : List ChunkRec :=
  st.chunks.filter (fun c => c.fileId == fid)

/-- `FileRepositoryDjango.get_chunk_orders`. -/
def getChunkOrders (st : St) (fid : Nat) : List Nat :=
  (listChunks st fid).map (fun c => c.chunk_order)

/-- `FileRepositoryDjango.create_chunk`. -/
def createChunk (st : St) (fid : Nat) (order : Nat) (ref : Nat) : St :=
  { st with chunks := st.chunks ++ [⟨fid, order, ref⟩] }

/-- Number of chunk rows of a file (`list_chunks(file).count()`). -/
def chunkCount (st : St) (fid : Nat) : Nat := (listChunks st fid).length

/-- The queryset `File.objects.filter(client_signature=sig,
status='PENDING')` of `find_pending_file`. -/
def pendingMatches (st : St) (sig : String) : List FileRec :=
  st.files.filter (fun r => r.client_signature == sig && r.status == "PENDING")

/-- The max-chunk-count scan of `find_pending_file` (`max_chunk_count`
starts at -1, so the first candidate always replaces an empty
accumulator; later candidates win only with strictly more chunks). -/
def bestPending (st : St) : Option (FileRec × Nat) → List FileRec →
    Option (FileRec × Nat)
  | acc, [] => acc
  | acc, f :: rest =>
    match acc with
    | none => bestPending st (some (f, chunkCount st f.fid)) rest
    | some (g, m) =>
      if chunkCount st f.fid > m then
        bestPending st (some (f, chunkCount st f.fid)) rest
      else
        bestPending st (some (g, m)) rest

/-- `FileRepositoryDjango.find_pending_file`: none when no PENDING file
matches the signature; the single match when unique; otherwise the scan
for the most chunks.  There is no special case for an empty signature. -/
def findPendingFile (st : St) (sig : String) : Option FileRec :=
  match pendingMatches st sig with
  | [] => none
  | [f] => some f
  | fs => (bestPending st none fs).map Prod.fst

/-- The resume probe at the top of `FileService.upload_file` (lines
107-111): an empty `client_signature` skips the repository lookup. -/
def resumeProbe (st : St) (sig : String) : Option FileRec :=
  if sig = "" then none else findPendingFile st sig

/-! ## The file service (`FileService`)

`upload_file` and `get_decrypted_stream` over `St`.

The abstract inputs standing for external effects:
* `E : Bytes → Bytes → Bytes` and `D` — the AES block permutations,
  key first (the `EncryptionService` is bound to one key; resume rebinds
  it to the stored key);
* `ivs : Nat → Bytes` — the stream of random IVs, by chunk number;
* `uploadOk : Nat → Bool` — whether the facade upload call for chunk
  `n` succeeds (`False` models a raised `StorageUploadError`);
* `serviceKey` — `self._encryption_service.key`, fixed when the
  `EncryptionService` was constructed;
* `prepCtx` — the storage context returned by `prepare_storage`.

Python exceptions become an `Except` component, returned together with
the state reached at the raise point (DB side effects persist). -/

/-- Upload failure kinds.  `unboundLocalFileInstance` is the Python
`UnboundLocalError`: in the resume branch of `upload_file` the local
`file_instance` is never assigned, yet `create_chunk(file_instance, ...)`
and `change_file_status(file_instance.id, ...)` read it. -/
inductive UpErr where
  | unboundLocalFileInstance
  | storageUpload (n : Nat)
  | invalidStatus
deriving DecidableEq, Repr

/-- `EncryptionService.__init__`: a supplied key must be exactly 32
bytes; with no key, the freshly generated `os.urandom(32)` key is
adopted. -/
def encryptionServiceInit (key : Option Bytes) (freshKey : Bytes) :
    Except String Bytes :=
  match key with
  | some k =>
    if k.length = 32 then Except.ok k
    else Except.error "Encryption key must be 32 bytes"
  | none => Except.ok freshKey

/-- The stream loop of `upload_file` (lines 148-174): for each slice,
skip it if its number is already recorded, otherwise encrypt, upload to
the backend, and record the chunk.  `fileInstance` is `none` in the
resume branch, where the Python local of that name is unbound. -/
def uploadLoop (E1 : Bytes → Bytes) (ivs : Nat → Bytes) (uploadOk : Nat → Bool)
    (fileInstance : Option Nat) (existing : List Nat) (n : Nat)
    (slices : List Bytes) (st : St) : St × Except UpErr Unit :=
  match slices with
  | [] => (st, Except.ok ())
  | s :: rest =>
    if n ∈ existing then
      uploadLoop E1 ivs uploadOk fileInstance existing (n + 1) rest st
    else if uploadOk n then
      let ec := encryptChunk E1 (ivs n) s
      let ref := st.remote.length
      let st1 := { st with remote := st.remote ++ [ec] }
      match fileInstance with
      | some fid =>
        uploadLoop E1 ivs uploadOk fileInstance existing (n + 1) rest
          (createChunk st1 fid n ref)
      | none => (st1, Except.error UpErr.unboundLocalFileInstance)
    else
      (st, Except.error (UpErr.storageUpload n))

/-- The fresh-upload branch of `upload_file`: adopt the service key,
prepare storage, create the PENDING file row, run the loop with an empty
known-chunk set, then mark COMPLETED. -/
def uploadFresh (E : Bytes → Bytes → Bytes) (ivs : Nat → Bytes)
    (uploadOk : Nat → Bool) (serviceKey : Bytes)
    (filename desc sig provider : String) (prepCtx : Nat)
    (chunk_size : Nat) (data : Bytes) (st : St) : St × Except UpErr Nat :=
  let p := createFile st filename filename desc serviceKey provider prepCtx sig
  let r := uploadLoop (E serviceKey) ivs uploadOk (some p.2.fid) [] 1
    (chunkList chunk_size data) p.1
  match r.2 with
  | Except.ok _ =>
    match changeFileStatus r.1 p.2.fid "COMPLETED" with
    | Except.ok st3 => (st3, Except.ok p.2.fid)
    | Except.error _ => (r.1, Except.error UpErr.invalidStatus)
  | Except.error e => (r.1, Except.error e)

/-- The resume branch of `upload_file`: rebind the cipher to the stored
key, reuse the stored context, read the known chunk orders, run the loop
with the Python local `file_instance` unbound (modelled as `none`); even
an all-skipped loop then crashes at `change_file_status`. -/
def uploadResume (E : Bytes → Bytes → Bytes) (ivs : Nat → Bytes)
    (uploadOk : Nat → Bool) (chunk_size : Nat) (data : Bytes)
    (fp : FileRec) (st : St) : St × Except UpErr Nat :=
  let existing := getChunkOrders st fp.fid
  let r := uploadLoop (E fp.encryption_key) ivs uploadOk none existing 1
    (chunkList chunk_size data) st
  match r.2 with
  | Except.ok _ => (r.1, Except.error UpErr.unboundLocalFileInstance)
  | Except.error e => (r.1, Except.error e)

/-- `FileService.upload_file`. -/
def uploadFile (E : Bytes → Bytes → Bytes) (ivs : Nat → Bytes)
    (uploadOk : Nat → Bool) (serviceKey : Bytes)
    (filename desc sig provider : String) (prepCtx : Nat)
    (chunk_size : Nat) (data : Bytes) (st : St) : St × Except UpErr Nat :=
  match resumeProbe st sig with
  | none => uploadFresh E ivs uploadOk serviceKey filename desc sig provider
      prepCtx chunk_size data st
  | some fp => uploadResume E ivs uploadOk chunk_size data fp st

/-! ### Download -/

/-- Download failure kinds (`ValueError` for no chunks,
`StorageDownloadError`, decryption errors). -/
inductive DownErr where
  | noChunks
  | storageDownload
  | decrypt (e : DecErr)
deriving DecidableEq, Repr

/-- `.order_by('chunk_order')`. -/
def sortChunks (cs : List ChunkRec) : List ChunkRec :=
  cs.insertionSort (fun a b => a.chunk_order ≤ b.chunk_order)

/-- One iteration of the download loop: fetch the ciphertext through the
facade by its reference, then decrypt it. -/
def downloadDecryptOne (D1 : Bytes → Bytes) (st : St) (c : ChunkRec) :
    Except DownErr Bytes :=
  match st.remote[c.chunk_ref]? with
  | none => Except.error DownErr.storageDownload
  | some ec =>
    match decryptChunk D1 ec with
    | Except.error e => Except.error (DownErr.decrypt e)
    | Except.ok p => Except.ok p

/-- The download loop over the ordered chunk rows; stops at the first
failure (the generator raises mid-stream). -/
def decryptAll (D1 : Bytes → Bytes) (st : St) :
    List ChunkRec → Except DownErr (List Bytes)
  | [] => Except.ok []
  | c :: cs =>
    match downloadDecryptOne D1 st c with
    | Except.error e => Except.error e
    | Except.ok p =>
      match decryptAll D1 st cs with
      | Except.error e => Except.error e
      | Except.ok ps => Except.ok (p :: ps)

/-- `FileService.get_decrypted_stream`, fully consumed: order the chunk
rows, fail with the no-chunks `ValueError` on an empty set, otherwise
download and decrypt each in order. -/
def getDecryptedStream (D : Bytes → Bytes → Bytes) (st : St) (f : FileRec) :
    Except DownErr (List Bytes) :=
  let cs := sortChunks (listChunks st f.fid)
  if cs = [] then Except.error DownErr.noChunks
  else decryptAll (D f.encryption_key) st cs

/-! ### The download generator as a suspension machine

`get_decrypted_stream` is a Python generator: calling it runs none of
the body; each `next()` resumes it until the next `yield`.  `GenState`
is the suspension state, `genNext` one resumption; each resumption
reports the facade download calls it performs. -/

/-- An observable call to the storage backend. -/
inductive DriverCall where
  | download (ref : Nat)
deriving DecidableEq, Repr

/-- Suspension states of the generator: freshly constructed (body not
entered), suspended inside the loop, or exhausted. -/
inductive GenState where
  | start (f : FileRec)
  | looping (key : Bytes) (remaining : List ChunkRec)
  | finished
deriving Repr

/-- One `next()` on the generator: the driver calls it performs, and
either an error (the generator raises), or `none` (exhausted), or a
yielded plaintext plus the next suspension state. -/
def genNext (D : Bytes → Bytes → Bytes) (st : St) :
    GenState → List DriverCall × Except DownErr (Option (Bytes × GenState))
  | GenState.start f =>
    match sortChunks (listChunks st f.fid) with
    | [] => ([], Except.error DownErr.noChunks)
    | c :: rest =>
      ([DriverCall.download c.chunk_ref],
       match downloadDecryptOne (D f.encryption_key) st c with
       | Except.error e => Except.error e
       | Except.ok p =>
         Except.ok (some (p, GenState.looping f.encryption_key rest)))
  | GenState.looping _ [] => ([], Except.ok none)
  | GenState.looping key (c :: rest) =>
    ([DriverCall.download c.chunk_ref],
     match downloadDecryptOne (D key) st c with
     | Except.error e => Except.error e
     | Except.ok p => Except.ok (some (p, GenState.looping key rest)))
  | GenState.finished => ([], Except.ok none)

/-- Request `n` elements from a generator state, collecting the driver
calls made and the plaintexts yielded. -/
def consumeGen (D : Bytes → Bytes → Bytes) (st : St) (n : Nat) (g : GenState) :
    List DriverCall × Except DownErr (List Bytes) :=
  match n with
  | 0 => ([], Except.ok [])
  | m + 1 =>
    match genNext D st g with
    | (calls, Except.error e) => (calls, Except.error e)
    | (calls, Except.ok none) => (calls, Except.ok [])
    | (calls, Except.ok (some p)) =>
      let r := consumeGen D st m p.2
      (calls ++ r.1,
       match r.2 with
       | Except.ok bs => Except.ok (p.1 :: bs)
       | Except.error e => Except.error e)

/-! ## Characterization of the fresh upload path -/

/-- The ciphertexts the loop uploads for the given slices, numbering
from `n`. -/
def encSlices (E1 : Bytes → Bytes) (ivs : Nat → Bytes) :
    Nat → List Bytes → List Bytes
  | _, [] => []
  | n, s :: rest => encryptChunk E1 (ivs n) s :: encSlices E1 ivs (n + 1) rest

/-- The chunk rows the loop records: `k` rows for file `fid`, orders
starting at `n`, references starting at `base`. -/
def chunkRecsFrom (fid : Nat) : Nat → Nat → Nat → List ChunkRec
  | _, _, 0 => []
  | n, base, k + 1 =>
    ⟨fid, n, base⟩ :: chunkRecsFrom fid (n + 1) (base + 1) k

/-- Well-formedness of the catalog state: every file id and every chunk
foreign key is below the autoincrement counter. -/
def St.WF (st : St) : Prop :=
  (∀ f ∈ st.files, f.fid < st.nextId) ∧ (∀ c ∈ st.chunks, c.fileId < st.nextId)

theorem map_keep_of_ne (fid : Nat) (upd : FileRec → FileRec) :
    ∀ (l : List FileRec), (∀ r ∈ l, r.fid ≠ fid) →
      l.map (fun r => if r.fid = fid then upd r else r) = l := by
  intro l
  induction l with
  | nil => intro _; rfl
  | cons r rest ih =>
    intro h
    simp only [List.map_cons, if_neg (h r (by simp)),
      ih (fun x hx => h x (by simp [hx]))]

theorem uploadLoop_fresh (E1 : Bytes → Bytes) (ivs : Nat → Bytes)
    (uploadOk : Nat → Bool) (fid : Nat) (hok : ∀ i, uploadOk i = true) :
    ∀ (slices : List Bytes) (n : Nat) (st : St),
      uploadLoop E1 ivs uploadOk (some fid) [] n slices st =
        ({ st with
            remote := st.remote ++ encSlices E1 ivs n slices,
            chunks := st.chunks ++
              chunkRecsFrom fid n st.remote.length slices.length },
         Except.ok ()) := by
  intro slices
  induction slices with
  | nil => intro n st; simp [uploadLoop, encSlices, chunkRecsFrom]
  | cons s rest ih =>
    intro n st
    rw [uploadLoop]
    simp only [List.not_mem_nil, if_false, hok n, if_true, createChunk,
      encSlices, chunkRecsFrom, List.length_cons]
    rw [ih]
    simp [List.append_assoc]

theorem chunkRecsFrom_orders (fid : Nat) :
    ∀ (k n base : Nat),
      (chunkRecsFrom fid n base k).map (fun c => c.chunk_order) =
        List.range' n k := by
  intro k
  induction k with
  | zero => intro n base; rfl
  | succ m ih =>
    intro n base
    rw [chunkRecsFrom, List.range'_succ]
    simp only [List.map_cons, ih]

theorem chunkRecsFrom_fileId (fid : Nat) :
    ∀ (k n base : Nat) (c : ChunkRec), c ∈ chunkRecsFrom fid n base k →
      c.fileId = fid := by
  intro k
  induction k with
  | zero => intro n base c hc; simp [chunkRecsFrom] at hc
  | succ m ih =>
    intro n base c hc
    rw [chunkRecsFrom, List.mem_cons] at hc
    rcases hc with hc | hc
    · rw [hc]
    · exact ih (n + 1) (base + 1) c hc

theorem chunkRecsFrom_order_lb (fid : Nat) :
    ∀ (k n base : Nat) (c : ChunkRec), c ∈ chunkRecsFrom fid n base k →
      n ≤ c.chunk_order := by
  intro k
  induction k with
  | zero => intro n base c hc; simp [chunkRecsFrom] at hc
  | succ m ih =>
    intro n base c hc
    rw [chunkRecsFrom, List.mem_cons] at hc
    rcases hc with hc | hc
    · rw [hc]
    · exact Nat.le_of_succ_le (ih (n + 1) (base + 1) c hc)

theorem chunkRecsFrom_sorted (fid : Nat) :
    ∀ (k n base : Nat),
      List.Sorted (fun a b : ChunkRec => a.chunk_order ≤ b.chunk_order)
        (chunkRecsFrom fid n base k) := by
  intro k
  induction k with
  | zero => intro n base; simp [chunkRecsFrom, List.Sorted]
  | succ m ih =>
    intro n base
    rw [chunkRecsFrom]
    refine List.Pairwise.cons ?_ (ih (n + 1) (base + 1))
    intro c hc
    exact Nat.le_of_succ_le (chunkRecsFrom_order_lb fid m (n + 1) (base + 1) c hc)

theorem chunkRecsFrom_length (fid : Nat) :
    ∀ (k n base : Nat), (chunkRecsFrom fid n base k).length = k := by
  intro k
  induction k with
  | zero => intro n base; rfl
  | succ m ih =>
    intro n base
    rw [chunkRecsFrom, List.length_cons, ih]

theorem decryptAll_encSlices (E1 D1 : Bytes → Bytes)
    (hinv : ∀ b, D1 (E1 b) = b) (hlen : ∀ b, (E1 b).length = b.length)
    (ivs : Nat → Bytes) (hiv : ∀ i, (ivs i).length = 16) (fid : Nat) :
    ∀ (slices : List Bytes) (n : Nat) (st : St) (R : List Bytes),
      st.remote = R ++ encSlices E1 ivs n slices →
      decryptAll D1 st (chunkRecsFrom fid n R.length slices.length) =
        Except.ok slices := by
  intro slices
  induction slices with
  | nil => intro n st R _; rfl
  | cons s rest ih =>
    intro n st R hrem
    rw [encSlices] at hrem
    have hsplit : st.remote =
        (R ++ [encryptChunk E1 (ivs n) s]) ++ encSlices E1 ivs (n + 1) rest := by
      rw [hrem, List.append_assoc]; rfl
    have hget : st.remote[R.length]? = some (encryptChunk E1 (ivs n) s) := by
      rw [hrem, List.getElem?_append_right (le_refl _)]
      simp
    have hdec := decryptChunk_encryptChunk E1 D1 hinv hlen (ivs n) (hiv n) s
    have hrec := ih (n + 1) st (R ++ [encryptChunk E1 (ivs n) s]) hsplit
    rw [List.length_append, List.length_cons, List.length_nil] at hrec
    rw [List.length_cons, chunkRecsFrom]
    simp only [decryptAll, downloadDecryptOne, hget, hdec, hrec]

/-- The resume branch never succeeds: the Python local `file_instance`
is read while unbound, whichever way the loop ends. -/
theorem uploadResume_never_ok (E : Bytes → Bytes → Bytes) (ivs : Nat → Bytes)
    (uploadOk : Nat → Bool) (chunk_size : Nat) (data : Bytes)
    (fp : FileRec) (st : St) :
    ∀ fid, (uploadResume E ivs uploadOk chunk_size data fp st).2 ≠
      Except.ok fid := by
  intro fid
  unfold uploadResume
  cases h : (uploadLoop (E fp.encryption_key) ivs uploadOk none
      (getChunkOrders st fp.fid) 1 (chunkList chunk_size data) st).2 <;>
    simp [h]

/-- Full characterization of a successful fresh upload: the new file row
is appended with status COMPLETED, the chunk rows and ciphertexts are
appended in order, and the existing rows are untouched. -/
theorem uploadFresh_ok (E : Bytes → Bytes → Bytes) (ivs : Nat → Bytes)
    (uploadOk : Nat → Bool) (serviceKey : Bytes)
    (filename desc sig provider : String) (prepCtx : Nat)
    (chunk_size : Nat) (data : Bytes) (st : St)
    (hok : ∀ i, uploadOk i = true) (hWF : St.WF st) :
    uploadFresh E ivs uploadOk serviceKey filename desc sig provider prepCtx
        chunk_size data st =
      ({ files := st.files ++
           [⟨st.nextId, filename, filename, desc, serviceKey, provider,
             prepCtx, sig, "COMPLETED"⟩],
         chunks := st.chunks ++ chunkRecsFrom st.nextId 1 st.remote.length
           (chunkList chunk_size data).length,
         remote := st.remote ++
           encSlices (E serviceKey) ivs 1 (chunkList chunk_size data),
         nextId := st.nextId + 1 },
       Except.ok st.nextId) := by
  unfold uploadFresh createFile
  simp only
  rw [uploadLoop_fresh (E serviceKey) ivs uploadOk st.nextId hok]
  simp only [changeFileStatus, validStatuses]
  rw [if_pos (by simp)]
  simp only [List.map_append,
    map_keep_of_ne st.nextId _ st.files
      (fun r hr => Nat.ne_of_lt (hWF.1 r hr)),
    List.map_cons, List.map_nil]
  simp

theorem chunkList_ne_nil (size : Nat) (bs : Bytes) (h : bs ≠ []) :
    chunkList size bs ≠ [] := by
  unfold chunkList
  cases hb : bs.length with
  | zero => exact absurd (List.eq_nil_of_length_eq_zero hb) h
  | succ m => simp [chunkListAux, h]

theorem find_fresh (l : List FileRec) (nid : Nat)
    (hl : ∀ r ∈ l, r.fid < nid) (fc : FileRec) (hfc : fc.fid = nid) :
    (l ++ [fc]).find? (fun r => r.fid == nid) = some fc := by
  rw [List.find?_append,
    List.find?_eq_none.mpr (fun r hr => by simp [Nat.ne_of_lt (hl r hr)])]
  simp [hfc]

theorem filter_fresh (cs : List ChunkRec) (nid : Nat)
    (hcs : ∀ c ∈ cs, c.fileId < nid) (recs : List ChunkRec)
    (hrecs : ∀ c ∈ recs, c.fileId = nid) :
    (cs ++ recs).filter (fun c => c.fileId == nid) = recs := by
  rw [List.filter_append,
    List.filter_eq_nil_iff.mpr
      (fun c hc => by simp [Nat.ne_of_lt (hcs c hc)]),
    List.filter_eq_self.mpr (fun c hc => by simp [hrecs c hc]),
    List.nil_append]

/-- Destruct a successful `upload_file` call: the resume branch can
never return, so success comes from the fresh branch, whose effect is
the characterized appended state. -/
theorem uploadFile_ok_elim (E D : Bytes → Bytes → Bytes) (ivs : Nat → Bytes)
    (uploadOk : Nat → Bool) (serviceKey : Bytes)
    (filename desc sig provider : String) (prepCtx : Nat)
    (chunk_size : Nat) (data : Bytes) (st : St) (fid : Nat)
    (hok : ∀ i, uploadOk i = true) (hWF : St.WF st)
    (h : (uploadFile E ivs uploadOk serviceKey filename desc sig provider
      prepCtx chunk_size data st).2 = Except.ok fid) :
    fid = st.nextId ∧
    uploadFile E ivs uploadOk serviceKey filename desc sig provider prepCtx
        chunk_size data st =
      ({ files := st.files ++
           [⟨st.nextId, filename, filename, desc, serviceKey, provider,
             prepCtx, sig, "COMPLETED"⟩],
         chunks := st.chunks ++ chunkRecsFrom st.nextId 1 st.remote.length
           (chunkList chunk_size data).length,
         remote := st.remote ++
           encSlices (E serviceKey) ivs 1 (chunkList chunk_size data),
         nextId := st.nextId + 1 },
       Except.ok st.nextId) := by
  unfold uploadFile at h ⊢
  cases hrp : resumeProbe st sig with
  | some fp =>
    rw [hrp] at h
    exact absurd h
      (uploadResume_never_ok E ivs uploadOk chunk_size data fp st fid)
  | none =>
    rw [hrp] at h
    dsimp only at h ⊢
    rw [uploadFresh_ok E ivs uploadOk serviceKey filename desc sig provider
      prepCtx chunk_size data st hok hWF] at h ⊢
    exact ⟨(Except.ok.inj h).symm, rfl⟩

/-! ## Concrete instances used by witnesses

A trivial (identity) block permutation satisfies the two block-cipher
assumptions; concrete IVs, keys and states let witnesses evaluate the
embedded operations. -/

/-- Identity block permutation, for witness instantiation. -/
def wE : Bytes → Bytes → Bytes := fun _ b => b

/-- A fixed IV source. -/
def wIvs : Nat → Bytes := fun _ => List.replicate 16 0

/-- A fixed 32-byte key. -/
def wKey : Bytes := List.replicate 32 7

/-- The empty catalog state. -/
def wSt0 : St := ⟨[], [], [], 0⟩

/-- A PENDING file carrying fingerprint `abc` (for resume scenarios). -/
def wPendingFile : FileRec :=
  ⟨0, "f.txt", "f.txt", "", wKey, "discord_default", 0, "abc", "PENDING"⟩

/-- A catalog holding `wPendingFile` with persisted chunks 1 and 2. -/
def wStPending : St :=
  ⟨[wPendingFile], [⟨0, 1, 0⟩, ⟨0, 2, 1⟩],
   [encryptChunk (wE wKey) (wIvs 1) [1, 2], encryptChunk (wE wKey) (wIvs 2) [3, 4]], 1⟩

/-- A PENDING file with an empty fingerprint. -/
def wEmptySigFile : FileRec :=
  ⟨0, "g.txt", "g.txt", "", wKey, "discord_default", 0, "", "PENDING"⟩

/-! ## C1 — upload-then-download round trip -/

/-- **C1** (amended): for every *nonempty* input uploaded successfully
with a positive `chunk_size`, fetching the resulting file and consuming
its decrypted download stream yields exactly the uploaded slices, whose
concatenation is the original input.  (The empty input completes the
upload but the download raises the no-chunks error — see the
counterexample.) -/
theorem c1_upload_download_roundtrip (E D : Bytes → Bytes → Bytes)
    (ivs : Nat → Bytes) (uploadOk : Nat → Bool) (serviceKey : Bytes)
    (filename desc sig provider : String) (prepCtx : Nat)
    (chunk_size : Nat) (data : Bytes) (st : St) (fid : Nat)
    (hinv : ∀ k b, D k (E k b) = b)
    (hlen : ∀ k b, (E k b).length = b.length)
    (hiv : ∀ i, (ivs i).length = 16) (hok : ∀ i, uploadOk i = true)
    (hWF : St.WF st) (hcs : 1 ≤ chunk_size) (hdata : data ≠ [])
    (h : (uploadFile E ivs uploadOk serviceKey filename desc sig provider
      prepCtx chunk_size data st).2 = Except.ok fid) :
    ∃ fc, getFile (uploadFile E ivs uploadOk serviceKey filename desc sig
        provider prepCtx chunk_size data st).1 fid = some fc ∧
      getDecryptedStream D (uploadFile E ivs uploadOk serviceKey filename
        desc sig provider prepCtx chunk_size data st).1 fc =
        Except.ok (chunkList chunk_size data) ∧
      (chunkList chunk_size data).flatten = data := by
  obtain ⟨hfid, heq⟩ := uploadFile_ok_elim E D ivs uploadOk serviceKey
    filename desc sig provider prepCtx chunk_size data st fid hok hWF h
  subst hfid
  rw [heq]
  dsimp only
  refine ⟨⟨st.nextId, filename, filename, desc, serviceKey, provider,
    prepCtx, sig, "COMPLETED"⟩, ?_, ?_, chunkList_flatten chunk_size hcs data⟩
  · exact find_fresh st.files st.nextId hWF.1 _ rfl
  · have hrecs : (st.chunks ++ chunkRecsFrom st.nextId 1 st.remote.length
        (chunkList chunk_size data).length).filter
          (fun c => c.fileId == st.nextId) =
        chunkRecsFrom st.nextId 1 st.remote.length
          (chunkList chunk_size data).length :=
      filter_fresh st.chunks st.nextId hWF.2 _
        (fun c hc => chunkRecsFrom_fileId st.nextId _ 1 st.remote.length c hc)
    have hsorted : sortChunks (chunkRecsFrom st.nextId 1 st.remote.length
        (chunkList chunk_size data).length) =
        chunkRecsFrom st.nextId 1 st.remote.length
          (chunkList chunk_size data).length :=
      List.Sorted.insertionSort_eq
        (chunkRecsFrom_sorted st.nextId _ 1 st.remote.length)
    have hne : chunkRecsFrom st.nextId 1 st.remote.length
        (chunkList chunk_size data).length ≠ [] := by
      intro hcontra
      have := congrArg List.length hcontra
      rw [chunkRecsFrom_length] at this
      exact chunkList_ne_nil chunk_size data hdata
        (List.eq_nil_of_length_eq_zero this)
    unfold getDecryptedStream listChunks
    dsimp only
    rw [hrecs, hsorted, if_neg hne]
    exact decryptAll_encSlices (E serviceKey) (D serviceKey)
      (hinv serviceKey) (hlen serviceKey) ivs hiv st.nextId
      (chunkList chunk_size data) 1 _ st.remote rfl

/-- Witness for C1: a five-byte input in three slices of two, identity
block permutation, empty catalog. -/
theorem c1_witness :
    ∃ fc, getFile (uploadFile wE wIvs (fun _ => true) wKey "f.txt" "" ""
        "discord_default" 0 2 [1, 2, 3, 4, 5] wSt0).1 0 = some fc ∧
      getDecryptedStream wE (uploadFile wE wIvs (fun _ => true) wKey "f.txt"
        "" "" "discord_default" 0 2 [1, 2, 3, 4, 5] wSt0).1 fc =
        Except.ok (chunkList 2 [1, 2, 3, 4, 5]) ∧
      (chunkList 2 [1, 2, 3, 4, 5]).flatten = [1, 2, 3, 4, 5] :=
  c1_upload_download_roundtrip wE wE wIvs (fun _ => true) wKey "f.txt" ""
    "" "discord_default" 0 2 [1, 2, 3, 4, 5] wSt0 0
    (fun _ _ => rfl) (fun _ _ => rfl) (fun _ => rfl) (fun _ => rfl)
    ⟨by simp [wSt0], by simp [wSt0]⟩ (by omega) (by simp) (by rfl)

/-- Counterexample for C1 as stated: the empty input uploads without
error (status COMPLETED) but downloading the resulting file fails with
the no-chunks error instead of yielding the empty concatenation. -/
theorem c1_counterexample :
    (uploadFile wE wIvs (fun _ => true) wKey "e.txt" "" "" "discord_default"
      0 4096 [] wSt0).2 = Except.ok 0 ∧
    getFile (uploadFile wE wIvs (fun _ => true) wKey "e.txt" "" ""
      "discord_default" 0 4096 [] wSt0).1 0 =
      some ⟨0, "e.txt", "e.txt", "", wKey, "discord_default", 0, "", "COMPLETED"⟩ ∧
    getDecryptedStream wE (uploadFile wE wIvs (fun _ => true) wKey "e.txt"
      "" "" "discord_default" 0 4096 [] wSt0).1
      ⟨0, "e.txt", "e.txt", "", wKey, "discord_default", 0, "", "COMPLETED"⟩ =
      Except.error DownErr.noChunks :=
  ⟨rfl, rfl, rfl⟩

/-! ## C2 — the resume branch crashes on the unbound local -/

/-- **C2.** Evaluating the embedded `upload_file` at the spec scenario
(a PENDING file with fingerprint `abc` holding chunks `{1, 2}`, then a
second upload with the same fingerprint and the same five-byte source in
three slices): chunks 1 and 2 are skipped and only chunk 3 reaches the
backend (`remote` grows from 2 to 3 ciphertexts), but the call raises
the `UnboundLocalError` on `file_instance` instead of completing — the
status stays PENDING and the chunk set stays `{1, 2}`. -/
theorem c2_resume_crashes_on_unbound_local :
    (uploadFile wE wIvs (fun _ => true) wKey "f.txt" "" "abc"
      "discord_default" 0 2 [1, 2, 3, 4, 5] wStPending).2 =
      Except.error UpErr.unboundLocalFileInstance ∧
    (getFile (uploadFile wE wIvs (fun _ => true) wKey "f.txt" "" "abc"
      "discord_default" 0 2 [1, 2, 3, 4, 5] wStPending).1 0).map
        (fun f => f.status) = some "PENDING" ∧
    getChunkOrders (uploadFile wE wIvs (fun _ => true) wKey "f.txt" "" "abc"
      "discord_default" 0 2 [1, 2, 3, 4, 5] wStPending).1 0 = [1, 2] ∧
    (uploadFile wE wIvs (fun _ => true) wKey "f.txt" "" "abc"
      "discord_default" 0 2 [1, 2, 3, 4, 5] wStPending).1.remote.length = 3 :=
  ⟨rfl, rfl, rfl, rfl⟩

/-! ## C3 — failures propagate, the file stays PENDING, chunks remain -/

/-- A fresh-branch loop whose facade upload first fails at chunk
`n + k` (after `k` successes): the ciphertexts and chunk records of the
`k` chunks processed before the failure are appended — and nothing else
changes — and the error is the loop's result. -/
theorem uploadLoop_fresh_fail (E1 : Bytes → Bytes) (ivs : Nat → Bytes)
    (uploadOk : Nat → Bool) (fid : Nat) :
    ∀ (k : Nat) (slices : List Bytes) (n : Nat) (st : St),
      (∀ i, n ≤ i → i < n + k → uploadOk i = true) →
      uploadOk (n + k) = false → k < slices.length →
      uploadLoop E1 ivs uploadOk (some fid) [] n slices st =
        ({ st with
            remote := st.remote ++ encSlices E1 ivs n (slices.take k),
            chunks := st.chunks ++
              chunkRecsFrom fid n st.remote.length k },
         Except.error (UpErr.storageUpload (n + k))) := by
  intro k
  induction k with
  | zero =>
    intro slices n st _ hfail hk
    cases slices with
    | nil => simp at hk
    | cons s rest =>
      rw [Nat.add_zero] at hfail ⊢
      rw [uploadLoop, if_neg (List.not_mem_nil n),
        if_neg (by rw [hfail]; exact Bool.false_ne_true)]
      simp [encSlices, chunkRecsFrom]
  | succ m ih =>
    intro slices n st hok hfail hk
    cases slices with
    | nil => simp at hk
    | cons s rest =>
      have hokn : uploadOk n = true := hok n (le_refl n) (by omega)
      rw [uploadLoop, if_neg (List.not_mem_nil n), if_pos hokn]
      dsimp only
      rw [ih rest (n + 1)
        (createChunk { st with remote := st.remote ++
          [encryptChunk E1 (ivs n) s] } fid n st.remote.length)
        (fun i h1 h2 => hok i (by omega) (by omega))
        (by rw [show n + 1 + m = n + (m + 1) from by omega]; exact hfail)
        (by simp only [List.length_cons] at hk; omega)]
      simp only [createChunk, List.length_append, List.length_cons,
        List.length_nil, encSlices, chunkRecsFrom, List.take_succ_cons]
      rw [show n + 1 + m = n + (m + 1) from by omega]
      simp [List.append_assoc]

/-- The resume-branch loop (unbound `file_instance`) never creates a
chunk record and never touches the file rows, whatever happens: the
crash comes before any `create_chunk` succeeds. -/
theorem uploadLoop_none_state (E1 : Bytes → Bytes) (ivs : Nat → Bytes)
    (uploadOk : Nat → Bool) (existing : List Nat) :
    ∀ (slices : List Bytes) (n : Nat) (st : St),
      (uploadLoop E1 ivs uploadOk none existing n slices st).1.files =
        st.files ∧
      (uploadLoop E1 ivs uploadOk none existing n slices st).1.chunks =
        st.chunks := by
  intro slices
  induction slices with
  | nil => intro n st; exact ⟨rfl, rfl⟩
  | cons s rest ih =>
    intro n st
    rw [uploadLoop]
    by_cases hmem : n ∈ existing
    · rw [if_pos hmem]
      exact ih (n + 1) st
    · rw [if_neg hmem]
      by_cases hupl : uploadOk n = true
      · rw [if_pos hupl]
        exact ⟨rfl, rfl⟩
      · rw [if_neg hupl]
        exact ⟨rfl, rfl⟩

/-- **C3.** A failing upload leaves exactly the partial state behind —
the resume mechanism.  Fresh branch: if the facade upload first fails at
chunk `n` (any `n` within the stream), the call returns that error, and
the final catalog is exactly the initial one plus the new file row
*with status PENDING* plus the chunk records `1..n-1` created before the
failure (their ciphertexts on the backend) — nothing is cleaned up.
Resume branch: the loop crashes before any `create_chunk` succeeds, so
the file rows (including the PENDING row being resumed) and the chunk
rows are exactly unchanged, and an error propagates to the caller. -/
theorem c3_failure_leaves_pending_and_chunks (E : Bytes → Bytes → Bytes)
    (ivs : Nat → Bytes) (uploadOk : Nat → Bool) (serviceKey : Bytes)
    (filename desc sig provider : String) (prepCtx : Nat)
    (chunk_size : Nat) (data : Bytes) (st : St) (n : Nat) :
    (resumeProbe st sig = none →
      (∀ i, 1 ≤ i → i < n → uploadOk i = true) →
      uploadOk n = false → 1 ≤ n →
      n ≤ (chunkList chunk_size data).length →
      uploadFile E ivs uploadOk serviceKey filename desc sig provider
          prepCtx chunk_size data st =
        ({ files := st.files ++
             [⟨st.nextId, filename, filename, desc, serviceKey, provider,
               prepCtx, sig, "PENDING"⟩],
           chunks := st.chunks ++
             chunkRecsFrom st.nextId 1 st.remote.length (n - 1),
           remote := st.remote ++ encSlices (E serviceKey) ivs 1
             ((chunkList chunk_size data).take (n - 1)),
           nextId := st.nextId + 1 },
         Except.error (UpErr.storageUpload n))) ∧
    (∀ fp, resumeProbe st sig = some fp →
      (uploadFile E ivs uploadOk serviceKey filename desc sig provider
        prepCtx chunk_size data st).1.files = st.files ∧
      (uploadFile E ivs uploadOk serviceKey filename desc sig provider
        prepCtx chunk_size data st).1.chunks = st.chunks ∧
      ∃ e, (uploadFile E ivs uploadOk serviceKey filename desc sig provider
        prepCtx chunk_size data st).2 = Except.error e) := by
  constructor
  · intro hrp hok hfail hn1 hnle
    unfold uploadFile
    rw [hrp]
    unfold uploadFresh
    dsimp only
    have hloop := uploadLoop_fresh_fail (E serviceKey) ivs uploadOk
      st.nextId (n - 1) (chunkList chunk_size data) 1
      (createFile st filename filename desc serviceKey provider prepCtx sig).1
      (fun i h1 h2 => hok i h1 (by omega))
      (by rw [show 1 + (n - 1) = n from by omega]; exact hfail)
      (by omega)
    rw [show (1 : Nat) + (n - 1) = n from by omega] at hloop
    have hfid : (createFile st filename filename desc serviceKey provider
        prepCtx sig).2.fid = st.nextId := rfl
    rw [hfid, hloop]
    rfl
  · intro fp hrp
    unfold uploadFile
    rw [hrp]
    unfold uploadResume
    dsimp only
    obtain ⟨h1, h2⟩ := uploadLoop_none_state (E fp.encryption_key) ivs
      uploadOk (getChunkOrders st fp.fid) (chunkList chunk_size data) 1 st
    cases hr : (uploadLoop (E fp.encryption_key) ivs uploadOk none
        (getChunkOrders st fp.fid) 1 (chunkList chunk_size data) st).2 with
    | ok u => exact ⟨h1, h2, UpErr.unboundLocalFileInstance, rfl⟩
    | error e2 => exact ⟨h1, h2, e2, rfl⟩

/-- Witness for C3: fresh upload of five bytes in slices of two with the
facade failing at chunk 2 — the PENDING row and the chunk-1 record
remain, error propagated; and a resumed upload against the pending
`abc` catalog leaves its rows exactly unchanged with an error. -/
theorem c3_witness :
    uploadFile wE wIvs (fun i => i != 2) wKey "f.txt" "" "" "p" 0 2
        [1, 2, 3, 4, 5] wSt0 =
      ({ files := wSt0.files ++
           [⟨wSt0.nextId, "f.txt", "f.txt", "", wKey, "p", 0, "", "PENDING"⟩],
         chunks := wSt0.chunks ++
           chunkRecsFrom wSt0.nextId 1 wSt0.remote.length (2 - 1),
         remote := wSt0.remote ++ encSlices (wE wKey) wIvs 1
           ((chunkList 2 [1, 2, 3, 4, 5]).take (2 - 1)),
         nextId := wSt0.nextId + 1 },
       Except.error (UpErr.storageUpload 2)) ∧
    ((uploadFile wE wIvs (fun _ => true) wKey "g.txt" "" "abc" "p" 0 2
        [1, 2, 3] wStPending).1.files = wStPending.files ∧
     (uploadFile wE wIvs (fun _ => true) wKey "g.txt" "" "abc" "p" 0 2
        [1, 2, 3] wStPending).1.chunks = wStPending.chunks ∧
     ∃ e, (uploadFile wE wIvs (fun _ => true) wKey "g.txt" "" "abc" "p" 0 2
        [1, 2, 3] wStPending).2 = Except.error e) :=
  ⟨(c3_failure_leaves_pending_and_chunks wE wIvs (fun i => i != 2) wKey
      "f.txt" "" "" "p" 0 2 [1, 2, 3, 4, 5] wSt0 2).1 rfl
      (by intro i h1 h2
          have hi : i = 1 := by omega
          rw [hi]
          rfl)
      (by decide) (by decide) (by decide),
   (c3_failure_leaves_pending_and_chunks wE wIvs (fun _ => true) wKey
      "g.txt" "" "abc" "p" 0 2 [1, 2, 3] wStPending 1).2 wPendingFile
      (by rfl)⟩

/-! ## C4 — chunk orders of a completed upload -/

/-- **C4** (amended): every file completed by the embedded upload has
chunk orders forming exactly the contiguous range `1..N`, where `N` is
the number of slices of the input — with `N = 0` (an empty order set)
for the empty input, not `N ≥ 1` as claimed. -/
theorem c4_completed_orders_contiguous (E D : Bytes → Bytes → Bytes)
    (ivs : Nat → Bytes) (uploadOk : Nat → Bool) (serviceKey : Bytes)
    (filename desc sig provider : String) (prepCtx : Nat)
    (chunk_size : Nat) (data : Bytes) (st : St) (fid : Nat)
    (hok : ∀ i, uploadOk i = true) (hWF : St.WF st)
    (h : (uploadFile E ivs uploadOk serviceKey filename desc sig provider
      prepCtx chunk_size data st).2 = Except.ok fid) :
    ∃ fc, getFile (uploadFile E ivs uploadOk serviceKey filename desc sig
        provider prepCtx chunk_size data st).1 fid = some fc ∧
      fc.status = "COMPLETED" ∧
      (sortChunks (listChunks (uploadFile E ivs uploadOk serviceKey filename
        desc sig provider prepCtx chunk_size data st).1 fid)).map
          (fun c => c.chunk_order) =
        List.range' 1 (chunkList chunk_size data).length := by
  obtain ⟨hfid, heq⟩ := uploadFile_ok_elim E D ivs uploadOk serviceKey
    filename desc sig provider prepCtx chunk_size data st fid hok hWF h
  subst hfid
  rw [heq]
  dsimp only
  refine ⟨⟨st.nextId, filename, filename, desc, serviceKey, provider,
    prepCtx, sig, "COMPLETED"⟩, ?_, rfl, ?_⟩
  · exact find_fresh st.files st.nextId hWF.1 _ rfl
  · have hsorted : sortChunks (chunkRecsFrom st.nextId 1 st.remote.length
        (chunkList chunk_size data).length) =
        chunkRecsFrom st.nextId 1 st.remote.length
          (chunkList chunk_size data).length :=
      List.Sorted.insertionSort_eq
        (chunkRecsFrom_sorted st.nextId _ 1 st.remote.length)
    unfold listChunks
    dsimp only
    rw [filter_fresh st.chunks st.nextId hWF.2 _
        (fun c hc => chunkRecsFrom_fileId st.nextId _ 1 st.remote.length c hc),
      hsorted, chunkRecsFrom_orders]

/-- Witness for C4: three bytes in slices of two give orders `[1, 2]`. -/
theorem c4_witness :
    ∃ fc, getFile (uploadFile wE wIvs (fun _ => true) wKey "f.txt" "" "" "p"
        0 2 [1, 2, 3] wSt0).1 0 = some fc ∧
      fc.status = "COMPLETED" ∧
      (sortChunks (listChunks (uploadFile wE wIvs (fun _ => true) wKey
        "f.txt" "" "" "p" 0 2 [1, 2, 3] wSt0).1 0)).map
          (fun c => c.chunk_order) =
        List.range' 1 (chunkList 2 [1, 2, 3]).length :=
  c4_completed_orders_contiguous wE wE wIvs (fun _ => true) wKey "f.txt" ""
    "" "p" 0 2 [1, 2, 3] wSt0 0 (fun _ => rfl)
    ⟨by simp [wSt0], by simp [wSt0]⟩ (by rfl)

/-- Counterexample for C4 as stated: uploading the empty input finishes
successfully and yields a COMPLETED file whose chunk set is empty, so a
COMPLETED file need not have orders `1..N` with `N ≥ 1`. -/
theorem c4_counterexample :
    (uploadFile wE wIvs (fun _ => true) wKey "e.txt" "" "" "p" 0 4096 []
      wSt0).2 = Except.ok 0 ∧
    (getFile (uploadFile wE wIvs (fun _ => true) wKey "e.txt" "" "" "p" 0
      4096 [] wSt0).1 0).map (fun f => f.status) = some "COMPLETED" ∧
    listChunks (uploadFile wE wIvs (fun _ => true) wKey "e.txt" "" "" "p" 0
      4096 [] wSt0).1 0 = [] :=
  ⟨rfl, rfl, rfl⟩

/-! ## C5 — the per-file key of a fresh upload -/

theorem encryptionServiceInit_length (keyArg : Option Bytes)
    (freshKey k : Bytes)
    (h : encryptionServiceInit keyArg freshKey = Except.ok k)
    (hfresh : freshKey.length = 32) : k.length = 32 := by
  cases keyArg with
  | none =>
    simp only [encryptionServiceInit] at h
    rw [← Except.ok.inj h]
    exact hfresh
  | some k0 =>
    simp only [encryptionServiceInit] at h
    by_cases h32 : k0.length = 32
    · rw [if_pos h32] at h
      rw [← Except.ok.inj h]
      exact h32
    · rw [if_neg h32] at h
      exact absurd h (by simp)

/-- **C5** (amended): a fresh upload stores, as the per-file key,
exactly the 32-byte key the service's `EncryptionService` was bound to
at construction (`self._encryption_service.key`); no new key is
generated per upload, so fresh uploads through one service instance all
store that same key (see the counterexample), while instances
constructed with independently generated keys store distinct ones. -/
theorem c5_fresh_upload_stores_service_key (E D : Bytes → Bytes → Bytes)
    (ivs : Nat → Bytes) (uploadOk : Nat → Bool)
    (keyArg : Option Bytes) (freshKey serviceKey : Bytes)
    (filename desc sig provider : String) (prepCtx : Nat)
    (chunk_size : Nat) (data : Bytes) (st : St) (fid : Nat)
    (hinit : encryptionServiceInit keyArg freshKey = Except.ok serviceKey)
    (hfresh : freshKey.length = 32)
    (hok : ∀ i, uploadOk i = true) (hWF : St.WF st)
    (h : (uploadFile E ivs uploadOk serviceKey filename desc sig provider
      prepCtx chunk_size data st).2 = Except.ok fid) :
    ∃ fc, getFile (uploadFile E ivs uploadOk serviceKey filename desc sig
        provider prepCtx chunk_size data st).1 fid = some fc ∧
      fc.encryption_key = serviceKey ∧ fc.encryption_key.length = 32 := by
  obtain ⟨hfid, heq⟩ := uploadFile_ok_elim E D ivs uploadOk serviceKey
    filename desc sig provider prepCtx chunk_size data st fid hok hWF h
  subst hfid
  rw [heq]
  dsimp only
  exact ⟨⟨st.nextId, filename, filename, desc, serviceKey, provider,
      prepCtx, sig, "COMPLETED"⟩,
    find_fresh st.files st.nextId hWF.1 _ rfl, rfl,
    encryptionServiceInit_length keyArg freshKey serviceKey hinit hfresh⟩

/-- Witness for C5: service constructed with no explicit key adopts the
generated 32-byte key, and a one-slice upload stores it. -/
theorem c5_witness :
    ∃ fc, getFile (uploadFile wE wIvs (fun _ => true) wKey "a.txt" "" "" "p"
        0 2 [1] wSt0).1 0 = some fc ∧
      fc.encryption_key = wKey ∧ fc.encryption_key.length = 32 :=
  c5_fresh_upload_stores_service_key wE wE wIvs (fun _ => true) none wKey
    wKey "a.txt" "" "" "p" 0 2 [1] wSt0 0 rfl (by rfl) (fun _ => rfl)
    ⟨by simp [wSt0], by simp [wSt0]⟩ (by rfl)

/-- Counterexample for C5 as stated: two distinct fresh uploads through
the same service (same bound key) store the *same* key, not distinct,
independently generated per-file keys. -/
theorem c5_counterexample :
    (uploadFile wE wIvs (fun _ => true) wKey "a" "" "" "p" 0 2 [1]
      wSt0).2 = Except.ok 0 ∧
    (uploadFile wE wIvs (fun _ => true) wKey "b" "" "" "p" 0 2 [2]
      (uploadFile wE wIvs (fun _ => true) wKey "a" "" "" "p" 0 2 [1]
        wSt0).1).2 = Except.ok 1 ∧
    (getFile (uploadFile wE wIvs (fun _ => true) wKey "b" "" "" "p" 0 2 [2]
      (uploadFile wE wIvs (fun _ => true) wKey "a" "" "" "p" 0 2 [1]
        wSt0).1).1 0).map (fun f => f.encryption_key) = some wKey ∧
    (getFile (uploadFile wE wIvs (fun _ => true) wKey "b" "" "" "p" 0 2 [2]
      (uploadFile wE wIvs (fun _ => true) wKey "a" "" "" "p" 0 2 [1]
        wSt0).1).1 1).map (fun f => f.encryption_key) = some wKey :=
  ⟨rfl, rfl, rfl, rfl⟩

/-! ## C6 — the resume lookup -/

theorem bestPending_spec (st : St) :
    ∀ (l : List FileRec) (acc : Option (FileRec × Nat)),
      (∀ g m, acc = some (g, m) → m = chunkCount st g.fid) →
      ∀ f c, bestPending st acc l = some (f, c) →
        c = chunkCount st f.fid ∧ (f ∈ l ∨ acc = some (f, c)) ∧
        (∀ g ∈ l, chunkCount st g.fid ≤ c) ∧
        (∀ g m, acc = some (g, m) → m ≤ c) := by
  intro l
  induction l with
  | nil =>
    intro acc hacc f c hbp
    have hacc2 : acc = some (f, c) := hbp
    refine ⟨hacc f c hacc2, Or.inr hacc2,
      fun g hg => absurd hg (List.not_mem_nil g), fun g m hgm => ?_⟩
    rw [hacc2, Option.some.injEq, Prod.mk.injEq] at hgm
    omega
  | cons a rest ih =>
    intro acc hacc f c hbp
    cases acc with
    | none =>
      have hbp2 : bestPending st (some (a, chunkCount st a.fid)) rest =
          some (f, c) := hbp
      obtain ⟨hc, hmem, hmax, haccle⟩ := ih (some (a, chunkCount st a.fid))
        (fun g m hgm => by
          rw [Option.some.injEq, Prod.mk.injEq] at hgm
          rw [← hgm.2, ← hgm.1]) f c hbp2
      refine ⟨hc, ?_, ?_, fun g m hgm => Option.noConfusion hgm⟩
      · rcases hmem with hm | hm
        · exact Or.inl (List.mem_cons_of_mem a hm)
        · rw [Option.some.injEq, Prod.mk.injEq] at hm
          exact Or.inl (hm.1 ▸ List.mem_cons_self a rest)
      · intro g hg
        rw [List.mem_cons] at hg
        rcases hg with hg | hg
        · rw [hg]
          exact haccle a (chunkCount st a.fid) rfl
        · exact hmax g hg
    | some gm =>
      obtain ⟨g0, m0⟩ := gm
      have hbp2 : (if chunkCount st a.fid > m0 then
          bestPending st (some (a, chunkCount st a.fid)) rest
        else bestPending st (some (g0, m0)) rest) = some (f, c) := hbp
      by_cases hgt : chunkCount st a.fid > m0
      · rw [if_pos hgt] at hbp2
        obtain ⟨hc, hmem, hmax, haccle⟩ := ih (some (a, chunkCount st a.fid))
          (fun g m hgm => by
            rw [Option.some.injEq, Prod.mk.injEq] at hgm
            rw [← hgm.2, ← hgm.1]) f c hbp2
        have hac : chunkCount st a.fid ≤ c :=
          haccle a (chunkCount st a.fid) rfl
        refine ⟨hc, ?_, ?_, fun g m hgm => ?_⟩
        · rcases hmem with hm | hm
          · exact Or.inl (List.mem_cons_of_mem a hm)
          · rw [Option.some.injEq, Prod.mk.injEq] at hm
            exact Or.inl (hm.1 ▸ List.mem_cons_self a rest)
        · intro g hg
          rw [List.mem_cons] at hg
          rcases hg with hg | hg
          · rw [hg]; exact hac
          · exact hmax g hg
        · rw [Option.some.injEq, Prod.mk.injEq] at hgm
          omega
      · rw [if_neg hgt] at hbp2
        obtain ⟨hc, hmem, hmax, haccle⟩ := ih (some (g0, m0))
          (fun g m hgm => by
            rw [Option.some.injEq, Prod.mk.injEq] at hgm
            rw [← hgm.2, ← hgm.1]
            exact hacc g0 m0 rfl) f c hbp2
        have hm0c : m0 ≤ c := haccle g0 m0 rfl
        refine ⟨hc, ?_, ?_, fun g m hgm => ?_⟩
        · rcases hmem with hm | hm
          · exact Or.inl (List.mem_cons_of_mem a hm)
          · exact Or.inr hm
        · intro g hg
          rw [List.mem_cons] at hg
          rcases hg with hg | hg
          · rw [hg]; omega
          · exact hmax g hg
        · rw [Option.some.injEq, Prod.mk.injEq] at hgm
          omega

theorem bestPending_ne_none (st : St) :
    ∀ (l : List FileRec) (g : FileRec) (m : Nat),
      bestPending st (some (g, m)) l ≠ none := by
  intro l
  induction l with
  | nil =>
    intro g m h
    exact Option.noConfusion h
  | cons a rest ih =>
    intro g m h
    have h2 : (if chunkCount st a.fid > m then
        bestPending st (some (a, chunkCount st a.fid)) rest
      else bestPending st (some (g, m)) rest) = none := h
    by_cases hgt : chunkCount st a.fid > m
    · rw [if_pos hgt] at h2
      exact ih a (chunkCount st a.fid) h2
    · rw [if_neg hgt] at h2
      exact ih g m h2

theorem mem_pendingMatches (st : St) (sig : String) (f : FileRec) :
    f ∈ pendingMatches st sig ↔
      f ∈ st.files ∧ f.client_signature = sig ∧ f.status = "PENDING" := by
  unfold pendingMatches
  rw [List.mem_filter]
  simp [Bool.and_eq_true]

/-- **C6** (amended): the File Service resume probe returns none for an
empty fingerprint without consulting the repository; the repository
lookup `find_pending_file` itself applies no empty-fingerprint guard
(see the counterexample), and for any fingerprint returns none exactly
when no PENDING file carries it, and otherwise some PENDING file with
that fingerprint of maximal chunk count. -/
theorem c6_resume_lookup (st : St) (sig : String) :
    resumeProbe st "" = none ∧
    (findPendingFile st sig = none →
      ∀ g ∈ st.files, ¬(g.client_signature = sig ∧ g.status = "PENDING")) ∧
    (∀ f, findPendingFile st sig = some f →
      f ∈ st.files ∧ f.client_signature = sig ∧ f.status = "PENDING" ∧
      ∀ g ∈ st.files, g.client_signature = sig → g.status = "PENDING" →
        chunkCount st g.fid ≤ chunkCount st f.fid) := by
  refine ⟨rfl, ?_, ?_⟩
  · intro hnone g hg hprop
    unfold findPendingFile at hnone
    have hgmem : g ∈ pendingMatches st sig :=
      (mem_pendingMatches st sig g).mpr ⟨hg, hprop.1, hprop.2⟩
    cases hpm : pendingMatches st sig with
    | nil => rw [hpm] at hgmem; exact List.not_mem_nil g hgmem
    | cons a rest =>
      rw [hpm] at hnone
      cases rest with
      | nil => exact Option.noConfusion hnone
      | cons b rest2 =>
        have hnone2 : Option.map Prod.fst
            (bestPending st (some (a, chunkCount st a.fid)) (b :: rest2)) =
            none := hnone
        cases hbp : bestPending st (some (a, chunkCount st a.fid))
            (b :: rest2) with
        | none => exact bestPending_ne_none st (b :: rest2) a _ hbp
        | some fc =>
          rw [hbp] at hnone2
          exact Option.noConfusion hnone2
  · intro f hsome
    unfold findPendingFile at hsome
    cases hpm : pendingMatches st sig with
    | nil => rw [hpm] at hsome; exact Option.noConfusion hsome
    | cons a rest =>
      rw [hpm] at hsome
      cases rest with
      | nil =>
        have hfa : f = a := (Option.some.inj hsome).symm
        subst hfa
        have hmem : f ∈ pendingMatches st sig := by
          rw [hpm]; exact List.mem_cons_self f []
        obtain ⟨h1, h2, h3⟩ := (mem_pendingMatches st sig f).mp hmem
        refine ⟨h1, h2, h3, fun g hg hgs hgp => ?_⟩
        have hgmem : g ∈ pendingMatches st sig :=
          (mem_pendingMatches st sig g).mpr ⟨hg, hgs, hgp⟩
        rw [hpm, List.mem_singleton] at hgmem
        rw [hgmem]
      | cons b rest2 =>
        have hsome2 : Option.map Prod.fst
            (bestPending st (some (a, chunkCount st a.fid)) (b :: rest2)) =
            some f := hsome
        cases hbp : bestPending st (some (a, chunkCount st a.fid))
            (b :: rest2) with
        | none => exact absurd hbp (bestPending_ne_none st (b :: rest2) a _)
        | some fc =>
          rw [hbp] at hsome2
          obtain ⟨f0, c0⟩ := fc
          have hff0 : f = f0 := by
            simp only [Option.map] at hsome2
            exact (Option.some.inj hsome2).symm
          subst hff0
          obtain ⟨hc, hmem, hmax, haccle⟩ := bestPending_spec st (b :: rest2)
            (some (a, chunkCount st a.fid))
            (fun g m hgm => by
              rw [Option.some.injEq, Prod.mk.injEq] at hgm
              rw [← hgm.2, ← hgm.1]) f c0 hbp
          have hfmem : f ∈ pendingMatches st sig := by
            rw [hpm]
            rcases hmem with hm | hm
            · exact List.mem_cons_of_mem a hm
            · rw [Option.some.injEq, Prod.mk.injEq] at hm
              exact hm.1 ▸ List.mem_cons_self a _
          obtain ⟨h1, h2, h3⟩ := (mem_pendingMatches st sig f).mp hfmem
          refine ⟨h1, h2, h3, fun g hg hgs hgp => ?_⟩
          have hgmem : g ∈ pendingMatches st sig :=
            (mem_pendingMatches st sig g).mpr ⟨hg, hgs, hgp⟩
          rw [hpm, List.mem_cons] at hgmem
          rw [← hc]
          rcases hgmem with hgm | hgm
          · rw [hgm]
            exact haccle a (chunkCount st a.fid) rfl
          · exact hmax g hgm

/-- Witness for C6: two PENDING files share fingerprint `s`; the lookup
returns the one with more chunks, and the amended facts hold for it. -/
theorem c6_witness :
    (let f1 : FileRec := ⟨0, "a", "a", "", wKey, "p", 0, "s", "PENDING"⟩;
     let f2 : FileRec := ⟨1, "b", "b", "", wKey, "p", 0, "s", "PENDING"⟩;
     let st : St := ⟨[f1, f2], [⟨1, 1, 0⟩], [[9]], 2⟩;
     findPendingFile st "s" = some f2 ∧
     (f2 ∈ st.files ∧ f2.client_signature = "s" ∧ f2.status = "PENDING" ∧
      ∀ g ∈ st.files, g.client_signature = "s" → g.status = "PENDING" →
        chunkCount st g.fid ≤ chunkCount st f2.fid)) := by
  refine ⟨by rfl, ?_⟩
  exact (c6_resume_lookup _ "s").2.2 _ (by rfl)

/-- Counterexample for C6 as stated: the repository lookup called with
the empty fingerprint returns a PENDING file that carries an empty
fingerprint, not none (the empty-fingerprint guard lives only in the
File Service). -/
theorem c6_counterexample :
    findPendingFile ⟨[wEmptySigFile], [], [], 1⟩ "" = some wEmptySigFile :=
  rfl

/-! ## C9 — the download generator is lazy, one call per element -/

theorem consumeGen_looping (D : Bytes → Bytes → Bytes) (st : St) (key : Bytes) :
    ∀ (n : Nat) (rem : List ChunkRec),
      (∀ c ∈ rem, ∃ p, downloadDecryptOne (D key) st c = Except.ok p) →
      (consumeGen D st n (GenState.looping key rem)).1 =
        (rem.take n).map (fun c => DriverCall.download c.chunk_ref) := by
  intro n
  induction n with
  | zero => intro rem _; rfl
  | succ m ih =>
    intro rem hrem
    cases rem with
    | nil => rfl
    | cons c rest =>
      obtain ⟨p, hp⟩ := hrem c (List.mem_cons_self c rest)
      rw [consumeGen]
      simp only [genNext, hp, List.take_succ_cons, List.map_cons]
      rw [ih rest (fun x hx => hrem x (List.mem_cons_of_mem c hx))]
      rfl

/-- **C9.** For the download generator of a file whose chunks all
resolve: requesting zero elements (constructing without consuming)
performs zero driver calls; requesting `n` elements performs exactly one
download call per element, in the order of the sorted chunk rows; and
the served chunk orders are ascending. -/
theorem c9_lazy_one_call_per_element (D : Bytes → Bytes → Bytes) (st : St)
    (f : FileRec)
    (hres : ∀ c ∈ sortChunks (listChunks st f.fid),
      ∃ p, downloadDecryptOne (D f.encryption_key) st c = Except.ok p) :
    (consumeGen D st 0 (GenState.start f)).1 = [] ∧
    (∀ n, (consumeGen D st n (GenState.start f)).1 =
      ((sortChunks (listChunks st f.fid)).take n).map
        (fun c => DriverCall.download c.chunk_ref)) ∧
    List.Pairwise (fun a b => a ≤ b)
      ((sortChunks (listChunks st f.fid)).map (fun c => c.chunk_order)) := by
  refine ⟨rfl, ?_, ?_⟩
  · intro n
    cases n with
    | zero => rfl
    | succ m =>
      cases hcs : sortChunks (listChunks st f.fid) with
      | nil =>
        rw [consumeGen]
        simp [genNext, hcs]
      | cons c rest =>
        have hc := hres c (hcs ▸ List.mem_cons_self c rest)
        obtain ⟨p, hp⟩ := hc
        rw [consumeGen]
        simp only [genNext, hcs, hp, List.take_succ_cons, List.map_cons]
        rw [consumeGen_looping D st f.encryption_key m rest
          (fun x hx => hres x (hcs ▸ List.mem_cons_of_mem c hx))]
        rfl
  · rw [List.pairwise_map]
    haveI h1 : IsTotal ChunkRec (fun a b => a.chunk_order ≤ b.chunk_order) :=
      ⟨fun a b => Nat.le_total a.chunk_order b.chunk_order⟩
    haveI h2 : IsTrans ChunkRec (fun a b => a.chunk_order ≤ b.chunk_order) :=
      ⟨fun _ _ _ hab hbc => Nat.le_trans hab hbc⟩
    exact List.sorted_insertionSort
      (fun a b : ChunkRec => a.chunk_order ≤ b.chunk_order)
      (listChunks st f.fid)

/-- Witness for C9: a two-chunk file in a concrete catalog; construction
makes no call, consuming both elements makes the two download calls in
ascending order. -/
theorem c9_witness :
    (consumeGen wE wStPending 0 (GenState.start wPendingFile)).1 = [] ∧
    (∀ n, (consumeGen wE wStPending n (GenState.start wPendingFile)).1 =
      ((sortChunks (listChunks wStPending wPendingFile.fid)).take n).map
        (fun c => DriverCall.download c.chunk_ref)) ∧
    List.Pairwise (fun a b => a ≤ b)
      ((sortChunks (listChunks wStPending wPendingFile.fid)).map
        (fun c => c.chunk_order)) :=
  c9_lazy_one_call_per_element wE wStPending wPendingFile (by
    intro c hc
    have hcs : sortChunks (listChunks wStPending wPendingFile.fid) =
        [⟨0, 1, 0⟩, ⟨0, 2, 1⟩] := by rfl
    rw [hcs, List.mem_cons, List.mem_singleton] at hc
    rcases hc with hc | hc
    · exact ⟨[1, 2], by rw [hc]; rfl⟩
    · exact ⟨[3, 4], by rw [hc]; rfl⟩)

/-! ## C7 — cipher round trip and empty-plaintext layout -/

/-- **C7.** For every plaintext `p` (including the empty plaintext) and
every key, decrypting the encryption of `p` returns `p`; for empty
plaintext the ciphertext is exactly the 16-byte IV followed by one
encrypted padded 16-byte block (32 bytes in total). -/
theorem c7_cipher_roundtrip_and_empty_layout
    (E D : Bytes → Bytes → Bytes) (key : Bytes)
    (hinv : ∀ b, D key (E key b) = b)
    (hlen : ∀ b, (E key b).length = b.length) :
    (∀ (iv p : Bytes), iv.length = 16 →
      decryptChunk (D key) (encryptChunk (E key) iv p) = Except.ok p) ∧
    (∀ iv : Bytes, iv.length = 16 →
      encryptChunk (E key) iv [] =
        iv ++ E key (xorBytes (List.replicate 16 16) iv) ∧
      (encryptChunk (E key) iv []).length = 32) := by
  constructor
  · intro iv p hiv
    exact decryptChunk_encryptChunk (E key) (D key) hinv hlen iv hiv p
  · intro iv hiv
    have hpad : pkcs7Pad [] = List.replicate 16 16 := by rfl
    have hblk : chunkList 16 (pkcs7Pad []) = [List.replicate 16 16] := by rfl
    constructor
    · unfold encryptChunk
      rw [hblk]
      simp [cbcEncBlocks]
    · rw [length_encryptChunk (E key) hlen iv hiv, hpad]
      simp

/-- Witness for C7: identity block permutation, zero IV, a small
plaintext, and the empty plaintext. -/
theorem c7_witness :
    decryptChunk (wE wKey) (encryptChunk (wE wKey) (wIvs 0) [1, 2, 3]) =
      Except.ok [1, 2, 3] ∧
    (encryptChunk (wE wKey) (wIvs 0) []).length = 32 :=
  ⟨(c7_cipher_roundtrip_and_empty_layout wE wE wKey (fun _ => rfl)
      (fun _ => rfl)).1 (wIvs 0) [1, 2, 3] (by decide),
   ((c7_cipher_roundtrip_and_empty_layout wE wE wKey (fun _ => rfl)
      (fun _ => rfl)).2 (wIvs 0) (by decide)).2⟩

/-! ## C8 — validator format layer -/

/-- **C8.** In the format layer: a non-matching (non-empty) bot token
appends a warning and contributes no error (every format error is one of
the two ID errors, and none arise when both IDs are well-formed), while
a non-matching `server_id` or `channel_id` appends an error. -/
theorem c8_format_layer (cfg : DiscordConfig)
    (htok : cfg.bot_token ≠ "") (hbad : botTokenMatch cfg.bot_token = false) :
    tokenFormatWarning ∈ (validateFormats cfg [] []).2 ∧
    (∀ e ∈ (validateFormats cfg [] []).1,
      e = idFormatError "server_id" cfg.server_id ∨
      e = idFormatError "channel_id" cfg.channel_id) ∧
    (snowflakeMatch cfg.server_id = false →
      idFormatError "server_id" cfg.server_id ∈ (validateFormats cfg [] []).1) ∧
    (snowflakeMatch cfg.channel_id = false →
      idFormatError "channel_id" cfg.channel_id ∈ (validateFormats cfg [] []).1) ∧
    (snowflakeMatch cfg.server_id = true →
      snowflakeMatch cfg.channel_id = true →
      (validateFormats cfg [] []).1 = []) := by
  unfold validateFormats
  by_cases h1 : snowflakeMatch cfg.server_id <;>
    by_cases h2 : snowflakeMatch cfg.channel_id <;>
      simp_all [htok]

/-- Witness for C8: a malformed token with one bad and one good ID. -/
theorem c8_witness :
    (let cfg : DiscordConfig := ⟨"badtoken", "123", "12345678901234567"⟩;
     tokenFormatWarning ∈ (validateFormats cfg [] []).2 ∧
     idFormatError "server_id" "123" ∈ (validateFormats cfg [] []).1) := by
  refine ⟨(c8_format_layer _ (by decide) (by decide)).1, ?_⟩
  exact (c8_format_layer ⟨"badtoken", "123", "12345678901234567"⟩
    (by decide) (by decide)).2.2.1 (by decide)

/-! ## C10 — catalog mutations on a missing id -/

/-- **C10.** `update_file`, `delete_file`, and `change_file_status`
(with a valid status) called with an id absent from the catalog raise
nothing and leave the state unchanged. -/
theorem c10_missing_id_noop (st : St) (fid : Nat) (upd : FileRec → FileRec)
    (newStatus : String)
    (hid : ∀ f ∈ st.files, f.fid ≠ fid)
    (hfk : ∀ c ∈ st.chunks, ∃ f ∈ st.files, c.fileId = f.fid)
    (hvalid : newStatus ∈ validStatuses) :
    updateFile st fid upd = st ∧ deleteFile st fid = st ∧
    changeFileStatus st fid newStatus = Except.ok st := by
  refine ⟨?_, ?_, ?_⟩
  · unfold updateFile
    rw [map_keep_of_ne fid upd st.files hid]
  · unfold deleteFile
    have h1 : st.files.filter (fun r => r.fid != fid) = st.files := by
      rw [List.filter_eq_self]
      intro r hr
      simpa using hid r hr
    have h2 : st.chunks.filter (fun c => c.fileId != fid) = st.chunks := by
      rw [List.filter_eq_self]
      intro c hc
      obtain ⟨f, hf, hcf⟩ := hfk c hc
      have := hid f hf
      simp [hcf, this]
    rw [h1, h2]
  · unfold changeFileStatus
    rw [if_pos hvalid,
      map_keep_of_ne fid (fun r => { r with status := newStatus }) st.files hid]

/-- Witness for C10: a one-file catalog probed with an absent id. -/
theorem c10_witness :
    (let st : St := ⟨[wEmptySigFile], [⟨0, 1, 0⟩], [[9]], 1⟩;
     updateFile st 5 (fun r => { r with description := "x" }) = st ∧
     deleteFile st 5 = st ∧
     changeFileStatus st 5 "COMPLETED" = Except.ok st) :=
  c10_missing_id_noop _ 5 _ "COMPLETED" (by decide)
    (by intro c hc; exact ⟨wEmptySigFile, by simp_all [wEmptySigFile]⟩)
    (by decide)

end DisCloud
